import Mathlib

/-!
Shallow embedding of the iterator combinators of `vm/src/stdlib/itertools.rs`
(RustPython's `itertools` module) together with proofs about them.

Modelling conventions:
* a pull-based iterator handle over a finite source is a `List α` holding the
  values not yet pulled; `call_next` on it is a `match` on the list,
  the empty list playing the role of a raised `StopIteration`;
* `usize` / `isize` arithmetic is `Nat` arithmetic with the platform word
  width made explicit (`usizeSize = 2 ^ 64`); `overflowing_add` is an
  explicit comparison against `usizeSize`;
* a Rust `panic!` (e.g. `Option::unwrap` on `None`, or an out-of-bounds
  index) is a dedicated constructor of the result type, distinct from both
  a produced value and the `StopIteration` sentinel;
* `vm.bool_eq` on values is `DecidableEq`, `try_to_bool` is an explicit
  truthiness function `α → Bool`.
-/

namespace Itertools

/-- `usize` is 64 bits wide on the target platform. -/
def usizeSize : Nat := 2 ^ 64

/-- `usize::MAX`. -/
def usizeMax : Nat := usizeSize - 1

/-- `isize::MAX` (also `sys.maxsize`). -/
def isizeMax : Nat := 2 ^ 63 - 1

/-! ### cycle (`PyItertoolsCycle`) -/

/-- State of `PyItertoolsCycle`: the remaining source (`iter`), the buffer of
values saved during the first pass (`saved`), and the replay index. -/
structure CycleState (α : Type u) where
  iter : List α
  saved : List α
  index : Nat
  deriving DecidableEq

/-- Outcome of one `next` call on a cycle: a produced value, the
`StopIteration` sentinel, or a panic (out-of-bounds buffer read). -/
inductive CycleOut (α : Type u)
  | val (v : α)
  | stop
  | panic
  deriving DecidableEq

/-- `PyItertoolsCycle::next`: pull from the source if it is still live,
saving a copy of the produced value; once the source is exhausted, replay the
saved buffer forever (empty buffer means permanent exhaustion).  The index
update mirrors `fetch_add(1)` followed by a conditional `store(0)` when the
old index was at (or past) the last buffered slot. -/
def cycleNext (s : CycleState α) : CycleOut α × CycleState α :=
  match s.iter with
  | x :: rest => (.val x, ⟨rest, s.saved ++ [x], s.index⟩)
  | [] =>
    if s.saved.length = 0 then (.stop, s)
    else
      let lastIndex := s.index
      let newIndex := if lastIndex ≥ s.saved.length - 1 then 0 else lastIndex + 1
      match s.saved.get? lastIndex with
      | some v => (.val v, ⟨[], s.saved, newIndex⟩)
      | none => (.panic, s)

/-- Pull up to `n` values from a cycle, collecting the produced values in
order; stop collecting at the first non-produced outcome. -/
def cycleTake : Nat → CycleState α → List α
  | 0, _ => []
  | n + 1, s =>
    match cycleNext s with
    | (.val v, s1) => v :: cycleTake n s1
    | (.stop, _) => []
    | (.panic, _) => []

/-- The cycle cursor as constructed by `PyItertoolsCycle::py_new` over a
finite source: empty buffer, index 0. -/
def cycleNew (xs : List α) : CycleState α := ⟨xs, [], 0⟩

/-! ### zip_longest (`PyItertoolsZipLongest`) -/

/-- The per-call loop body of `PyItertoolsZipLongest::next`: walk the
iterators in order with the running `numactive` count; an exhausted iterator
contributes the fill value after decrementing `numactive`, and when
`numactive` reaches zero the whole call raises `StopIteration` (`none`).
Returns the assembled tuple together with the advanced iterators. -/
def zipLongestPull (fv : α) : List (List α) → Nat → Option (List α × List (List α))
  | [], _ => some ([], [])
  | it :: rest, numactive =>
    match it with
    | x :: xs =>
      match zipLongestPull fv rest numactive with
      | some (vals, its) => some (x :: vals, xs :: its)
      | none => none
    | [] =>
      let numactive1 := numactive - 1
      if numactive1 = 0 then none
      else
        match zipLongestPull fv rest numactive1 with
        | some (vals, its) => some (fv :: vals, ([] : List α) :: its)
        | none => none

/-- `PyItertoolsZipLongest::next`: an empty iterator list raises
`StopIteration` outright; otherwise run the pull loop with `numactive`
initialised to the number of iterators. -/
def zipLongestNext (fv : α) (iters : List (List α)) : Option (List α × List (List α)) :=
  if iters.isEmpty then none
  else zipLongestPull fv iters iters.length

/-- Drive a zip_longest cursor for up to `n` calls, collecting the produced
tuples; stop at the first `StopIteration`. -/
def zipLongestTake (fv : α) : Nat → List (List α) → List (List α)
  | 0, _ => []
  | n + 1, iters =>
    match zipLongestNext fv iters with
    | some (vals, its) => vals :: zipLongestTake fv n its
    | none => []

/-! ### compress (`PyItertoolsCompress`) -/

/-- `PyItertoolsCompress::next`: each loop iteration pulls one selector
value first, coerces it to a boolean, then pulls one data value; a truthy
selector returns the data value, a falsy one discards it and repeats.
Exhaustion of either underlying cursor propagates (`none`).
`truthy` stands for `try_to_bool`. -/
def compressNext (truthy : α → Bool) : List α → List β → Option (β × List α × List β)
  | [], _ => none
  | _ :: _, [] => none
  | s :: ss, d :: ds =>
    if truthy s then some (d, ss, ds) else compressNext truthy ss ds

/-! ### chain (`PyItertoolsChain`) -/

/-- State of `PyItertoolsChain`: the fixed list of sources, the index of the
currently active source, and the cached cursor opened over it (`None` when a
fresh source must be opened at `curIdx`). -/
structure ChainState (α : Type u) where
  iterables : List (List α)
  curIdx : Nat
  cached : Option (List α)
  deriving DecidableEq

/-- The loop of `PyItertoolsChain::next`, with explicit fuel covering the
remaining sources.  Each iteration: stop if `curIdx` passed the end; open
and cache the cursor over `iterables[curIdx]` when none is cached; pull from
it; on its exhaustion advance `curIdx`, drop the cache and retry. -/
def chainNextAux (α : Type u) : Nat → ChainState α → Option (α × ChainState α)
  | 0, _ => none
  | fuel + 1, s =>
    if s.curIdx < s.iterables.length then
      let cur :=
        match s.cached with
        | some it => it
        | none => s.iterables.getD s.curIdx []
      match cur with
      | x :: rest => some (x, ⟨s.iterables, s.curIdx, some rest⟩)
      | [] => chainNextAux α fuel ⟨s.iterables, s.curIdx + 1, none⟩
    else none

/-- `PyItertoolsChain::next`: run the loop with enough fuel for every
remaining source plus the final bound check. -/
def chainNext (s : ChainState α) : Option (α × ChainState α) :=
  chainNextAux α (s.iterables.length - s.curIdx + 1) s

/-- Drain a chain cursor to a list, with explicit fuel. -/
def chainDrainAux (α : Type u) : Nat → ChainState α → List α
  | 0, _ => []
  | fuel + 1, s =>
    match chainNext s with
    | none => []
    | some (x, s1) => x :: chainDrainAux α fuel s1

/-- `chain(a, b)` freshly constructed (`tp_new`) and drained to exhaustion. -/
def chainCollect (a b : List α) : List α :=
  chainDrainAux α (a.length + b.length + 1) ⟨[a, b], 0, none⟩

/-! ### constructor validation (`pyobject_to_opt_usize`, `repeat`,
`combinations`) -/

/-- An argument object as seen by the numeric validators: either a Python
int with the given value, or a non-int object. -/
inductive PyNum
  | int (v : Int)
  | notInt
  deriving DecidableEq

/-- `pyobject_to_opt_usize` (used by islice for Start/Stop/Step): accept
exactly ints with `0 ≤ v ≤ isize::MAX` (the `to_usize()` conversion succeeds
exactly on `0 ≤ v ≤ usize::MAX`, and the explicit comparison then restricts
to `isize::MAX`); everything else is a `ValueError`. -/
def pyobjectToOptUsize (obj : PyNum) : Except String Nat :=
  match obj with
  | .int v =>
    if 0 ≤ v ∧ v ≤ (usizeMax : Int) ∧ v ≤ (isizeMax : Int) then .ok v.toNat
    else .error "ValueError"
  | .notInt => .error "ValueError"

/-- The `times` handling of `PyItertoolsRepeat::py_new`: a missing argument
means unbounded; a value above `isize::MAX` is an `OverflowError`; otherwise
`to_usize().unwrap_or(0)` is stored, which clamps every negative value to
`0` (`Int.toNat` is exactly that clamp). -/
def repeatNewTimes (times : Option Int) : Except String (Option Nat) :=
  match times with
  | none => .ok none
  | some v =>
    if v > (isizeMax : Int) then .error "OverflowError: Cannot fit in isize."
    else .ok (some v.toNat)

/-- The `r` handling shared by `PyItertoolsCombinations::py_new` and
`PyItertoolsCombinationsWithReplacement::py_new`: a negative `r` is a
`ValueError`; otherwise `r.to_usize().unwrap()` — which panics (`none`)
when `r` exceeds `usize::MAX`. -/
def combinationsNewR (r : Int) : Option (Except String Nat) :=
  if r < 0 then some (.error "r must be non-negative")
  else if r ≤ (usizeMax : Int) then some (.ok r.toNat)
  else none

/-- The `r` handling of `PyItertoolsPermutations::py_new`: same shape as the
combinations constructors (negative → `ValueError`, above `usize::MAX` →
`unwrap` panic), with a missing or `None` argument meaning `r = n`. -/
def permutationsNewR (n : Nat) (r : Option Int) : Option (Except String Nat) :=
  match r with
  | none => some (.ok n)
  | some v =>
    if v < 0 then some (.error "r must be non-negative")
    else if v ≤ (usizeMax : Int) then some (.ok v.toNat)
    else none

/-! ### islice (`PyItertoolsIslice`) -/

/-- State of `PyItertoolsIslice` over an unbounded source: `cur` counts the
values pulled from the source so far (and is therefore also the source
position), `next` is the next target index, `stop` the optional stop bound
and `step` the stride. -/
structure IsliceState where
  cur : Nat
  next : Nat
  stop : Option Nat
  step : Nat
  deriving DecidableEq

/-- Outcome of one `next` call on an islice cursor. -/
inductive IsliceOut (α : Type u)
  | produced (v : α)
  | stop
  | panic
  deriving DecidableEq

/-- The catch-up loop of `PyItertoolsIslice::next`
(`while cur < next: call_next; cur += 1`) over an unbounded source, where
every discarding pull succeeds. -/
def isliceCatchUp (cur next : Nat) : Nat :=
  if cur < next then isliceCatchUp (cur + 1) next else cur
termination_by next - cur
decreasing_by omega

/-- `PyItertoolsIslice::next` over the unbounded source `src` (position `n`
holds value `src n`): catch up to the target index, check the stop bound,
pull the real value, then advance the target by `step` using
`overflowing_add`; on overflow the new target is `stop.unwrap()` — a panic
when no stop bound was given. -/
def isliceNext (src : Nat → α) (s : IsliceState) : IsliceOut α × IsliceState :=
  let cur1 := isliceCatchUp s.cur s.next
  let atStop : Bool :=
    match s.stop with
    | some st => decide (cur1 ≥ st)
    | none => false
  if atStop then (.stop, { s with cur := cur1 })
  else
    let obj := src cur1
    let cur2 := cur1 + 1
    let sum := s.next + s.step
    if sum < usizeSize then (.produced obj, ⟨cur2, sum, s.stop, s.step⟩)
    else
      match s.stop with
      | some st => (.produced obj, ⟨cur2, st, s.stop, s.step⟩)
      | none => (.panic, { s with cur := cur2 })

/-! ### tee (`PyItertoolsTeeData` / `PyItertoolsTee`) -/

/-- The shared backing of tee cursors (`PyItertoolsTeeData`): the remaining
source and the buffer of values pulled so far. -/
structure TeeData (α : Type u) where
  iterable : List α
  values : List α
  deriving DecidableEq

/-- Outcome of `PyItertoolsTeeData::get_item`: a value together with the
updated shared backing, the propagated `StopIteration` of the source, or a
panic (read past the end of the buffer). -/
inductive TeeRes (α : Type u)
  | item (v : α) (d : TeeData α)
  | stop
  | panic
  deriving DecidableEq

/-- `PyItertoolsTeeData::get_item`: when `index` is exactly the buffer
length, pull once from the source (propagating its exhaustion) and append;
then read slot `index` of the buffer. -/
def teeGetItem (d : TeeData α) (index : Nat) : TeeRes α :=
  if d.values.length = index then
    match d.iterable with
    | [] => .stop
    | x :: rest =>
      let d1 : TeeData α := ⟨rest, d.values ++ [x]⟩
      match d1.values[index]? with
      | some v => .item v d1
      | none => .panic
  else
    match d.values[index]? with
    | some v => .item v d
    | none => .panic

/-- Joint state of the three cursors of `tee(seq, 3)`: the shared backing,
each cursor's private read index, and (for the proofs) the list of values
each cursor has produced so far, in production order. -/
structure Tee3State (α : Type u) where
  data : TeeData α
  idx : Fin 3 → Nat
  out : Fin 3 → List α

/-- `PyItertoolsTee::next` executed on cursor `c` of a three-cursor tee:
read the backing at the cursor's index and, on success, advance that index
(`fetch_add(1)` happens only after `get_item` returned `Ok`). The
`StopIteration` and panic outcomes leave every index unchanged. -/
def tee3Step (c : Fin 3) (s : Tee3State α) : Tee3State α :=
  match teeGetItem s.data (s.idx c) with
  | .item v d1 =>
    ⟨d1, Function.update s.idx c (s.idx c + 1), Function.update s.out c (s.out c ++ [v])⟩
  | .stop => s
  | .panic => s

/-- Run an interleaved schedule of `next` calls, each entry naming the
cursor advanced. -/
def tee3Run : List (Fin 3) → Tee3State α → Tee3State α
  | [], s => s
  | c :: sched, s => tee3Run sched (tee3Step c s)

/-- The joint state right after `tee(seq, 3)`: a fresh shared backing over
`seq` with an empty buffer, every cursor at index 0 (`__copy__` duplicates
the index, which is 0 at construction time). -/
def tee3New (seq : List α) : Tee3State α :=
  ⟨⟨seq, []⟩, fun _ => 0, fun _ => []⟩

/-! ### groupby (`PyItertoolsGroupBy` / `PyItertoolsGrouper`) -/

/-- The lock-protected shared record of groupby (`GroupByState`) together
with the remaining source and the grouper-identity bookkeeping: `grouper`
holds the id of the current grouper (the weak reference target), and
`fresh` is the next id to hand out — ids model object identity
(`grouper.is(current_grouper)`). -/
structure GBState (α : Type u) where
  iterable : List α
  currentValue : Option α
  currentKey : Option α
  nextGroup : Bool
  grouper : Option Nat
  fresh : Nat
  deriving DecidableEq

/-- Outcome of `PyItertoolsGroupBy::next`: a `(key, grouper-id)` pair, the
`StopIteration` sentinel, or a panic (`current_key.unwrap()` on `None`). -/
inductive GBOut (α : Type u)
  | pair (key : α) (gid : Nat)
  | stop
  | panic
  deriving DecidableEq

/-- Outcome of `PyItertoolsGrouper::next`. -/
inductive GrouperOut (α : Type u)
  | val (v : α)
  | stop
  | panic
  deriving DecidableEq

/-- The skip loop of `PyItertoolsGroupBy::next`: advance the source,
computing `kf` of each value (`PyItertoolsGroupBy::advance`), discarding
values whose key is `bool_eq` to the stored old key, until a differing key
appears (or the source ends). -/
def gbSkip [DecidableEq α] (kf : α → α) (old : α) : List α → Option (α × α × List α)
  | [] => none
  | x :: rest =>
    let k := kf x
    if k = old then gbSkip kf old rest else some (x, k, rest)

/-- The tail of `PyItertoolsGroupBy::next` after the new group's value and
key are stored: clear `next_group`, allocate a fresh grouper, mark it
current, and return `(current_key.unwrap(), grouper)` — the grouper slot is
written before the `unwrap`, so the fresh grouper is current even on the
panic path. -/
def groupByEmit (s : GBState α) : GBOut α × GBState α :=
  let gid := s.fresh
  let s1 := { s with nextGroup := false, grouper := some gid, fresh := gid + 1 }
  match s1.currentKey with
  | some k => (.pair k gid, s1)
  | none => (.panic, s1)

/-- `PyItertoolsGroupBy::next` with key function `kf` (the identity models
an absent key function): drop the current grouper; unless already
positioned at the next group (`next_group` set), advance the source —
skipping values whose key equals the previous stored key — and store the
first differing value/key; then emit a fresh grouper.  Source exhaustion
inside the advance propagates as `StopIteration`, with the grouper already
cleared. -/
def groupByNext [DecidableEq α] (kf : α → α) (s : GBState α) : GBOut α × GBState α :=
  let s0 := { s with grouper := none }
  if s0.nextGroup then groupByEmit s0
  else
    match s0.currentKey with
    | some old =>
      match gbSkip kf old s0.iterable with
      | none => (.stop, { s0 with iterable := [] })
      | some (v, k, rest) =>
        groupByEmit { s0 with iterable := rest, currentValue := some v, currentKey := some k }
    | none =>
      match s0.iterable with
      | [] => (.stop, s0)
      | x :: rest =>
        groupByEmit { s0 with iterable := rest, currentValue := some x, currentKey := some (kf x) }

/-- `PyItertoolsGrouper::next` for the grouper with id `gid`: signal
exhaustion when no longer the parent's current grouper; hand over and clear
the parent's buffered value if present; otherwise advance the source — a
matching key returns the value, a differing one is stored on the parent
with `next_group` set and currency cleared before signalling exhaustion.
Source exhaustion propagates with the state untouched. -/
def grouperNext [DecidableEq α] (kf : α → α) (gid : Nat) (s : GBState α) :
    GrouperOut α × GBState α :=
  if s.grouper = some gid then
    match s.currentValue with
    | some v => (.val v, { s with currentValue := none })
    | none =>
      match s.currentKey with
      | none => (.panic, s)
      | some old =>
        match s.iterable with
        | [] => (.stop, s)
        | x :: rest =>
          let k := kf x
          if k = old then (.val x, { s with iterable := rest })
          else
            (.stop, { s with iterable := rest, currentValue := some x, currentKey := some k,
                             nextGroup := true, grouper := none })
  else (.stop, s)

/-- A groupby cursor freshly constructed over a finite source
(`PyItertoolsGroupBy::py_new`): empty shared record, no grouper issued yet.
Grouper ids start at 0. -/
def groupByNew (xs : List α) : GBState α :=
  ⟨xs, none, none, false, none, 0⟩

/-- Drain the grouper `gid` (with fuel), collecting its values in order. -/
def grouperDrain [DecidableEq α] (kf : α → α) (gid : Nat) :
    Nat → GBState α → List α × GBState α
  | 0, s => ([], s)
  | fuel + 1, s =>
    match grouperNext kf gid s with
    | (.val v, s1) =>
      let (vs, s2) := grouperDrain kf gid fuel s1
      (v :: vs, s2)
    | (_, s1) => ([], s1)

/-- Drain a groupby cursor group by group (with fuel), draining each
returned grouper completely before advancing the outer iterator again. -/
def groupByCollect [DecidableEq α] (kf : α → α) : Nat → GBState α → List (α × List α)
  | 0, _ => []
  | fuel + 1, s =>
    match groupByNext kf s with
    | (.pair k gid, s1) =>
      let (vs, s2) := grouperDrain kf gid (fuel + 1) s1
      (k, vs) :: groupByCollect kf fuel s2
    | (_, _) => []

/-- One externally schedulable operation on a groupby family: an `advance`
of the outer iterator, or an `advance` of the grouper with a given id. -/
inductive GBOp
  | outer
  | inner (gid : Nat)
  deriving DecidableEq

/-- Apply one operation to the shared state, keeping only the state. -/
def gbApply [DecidableEq α] (kf : α → α) (op : GBOp) (s : GBState α) : GBState α :=
  match op with
  | .outer => (groupByNext kf s).2
  | .inner gid => (grouperNext kf gid s).2

/-- Run a schedule of operations on the shared state. -/
def gbRun [DecidableEq α] (kf : α → α) : List GBOp → GBState α → GBState α
  | [], s => s
  | op :: ops, s => gbRun kf ops (gbApply kf op s)

/-! ### combinations (`PyItertoolsCombinations`) -/

/-- State of `PyItertoolsCombinations`: the materialized pool, the index
vector, `r`, and the sticky exhausted flag. -/
structure CombinationsState (α : Type u) where
  pool : List α
  indices : List Nat
  r : Nat
  exhausted : Bool
  deriving DecidableEq

/-- The right-to-left scan of `PyItertoolsCombinations::next`: starting at
position `r - 1` and walking left, find the rightmost index not at its
maximum `position + n - r`; `none` when every index is maximal.  The last
argument is the number of positions still to inspect (`k + 1` inspects
position `k` first). -/
def combScan (indices : List Nat) (n r : Nat) : Nat → Option Nat
  | 0 => none
  | k + 1 => if indices.getD k 0 = k + n - r then combScan indices n r k else some k

/-- The reset loop of `PyItertoolsCombinations::next`
(`for j in idx+1..r { indices[j] = indices[j-1] + 1 }`), with the fuel
`r - j` counting the remaining positions. -/
def combFillAux : Nat → Nat → List Nat → List Nat
  | 0, _, ind => ind
  | fuel + 1, j, ind => combFillAux fuel (j + 1) (ind.set j (ind.getD (j - 1) 0 + 1))

/-- The successor step of `PyItertoolsCombinations::next` on the index
vector: `none` when the scan found every index maximal (the exhausted flag
is set), otherwise the incremented-and-reset vector. -/
def combStep (n r : Nat) (indices : List Nat) : Option (List Nat) :=
  match combScan indices n r r with
  | none => none
  | some idx =>
    let ind1 := indices.set idx (indices.getD idx 0 + 1)
    some (combFillAux (r - (idx + 1)) (idx + 1) ind1)

/-- `PyItertoolsCombinations::next`: emit the tuple selected by the current
indices, then advance them with the successor step (setting the sticky
exhausted flag when the scan fails); `r = 0` emits one empty tuple and
stops; an already-exhausted cursor keeps signalling `StopIteration`. -/
def combinationsNext [Inhabited α] (s : CombinationsState α) :
    Option (List α) × CombinationsState α :=
  if s.exhausted then (none, s)
  else
    let n := s.pool.length
    let r := s.r
    if r = 0 then (some [], { s with exhausted := true })
    else
      let res := s.indices.map fun i => s.pool.getD i default
      match combStep n r s.indices with
      | none => (some res, { s with exhausted := true })
      | some ind1 => (some res, { s with indices := ind1 })

/-- `PyItertoolsCombinations::py_new` over a drained pool: indices `0..r`,
exhausted exactly when `r` exceeds the pool size. -/
def combinationsNew (pool : List α) (r : Nat) : CombinationsState α :=
  ⟨pool, List.range r, r, decide (r > pool.length)⟩

/-- The invariant C6 claims of a live combinations cursor over a pool of
size `n`: the index vector has length `r`, is strictly increasing, and its
entry at position `i` never exceeds `i + n - r`. -/
def CombInv (n r : Nat) (ind : List Nat) : Prop :=
  ind.length = r ∧
  (∀ j, j < r → ∀ i, i < j → ind.getD i 0 < ind.getD j 0) ∧
  (∀ i, i < r → ind.getD i 0 ≤ i + n - r)

instance (n r : Nat) (ind : List Nat) : Decidable (CombInv n r ind) := by
  unfold CombInv; infer_instance

/-! ## Theorems -/

/-- C7: cycle over the finite source `[1,2,3]`, advanced 7 times, yields
exactly `[1,2,3,1,2,3,1]`; cycle over an empty source signals exhaustion on
every `advance()` — the first call already raises `StopIteration`, leaves
the state unchanged, and therefore so does every later call — and never
produces a value. -/
theorem cycle_seven_and_empty :
    cycleTake 7 (cycleNew [1, 2, 3]) = [1, 2, 3, 1, 2, 3, 1] ∧
    cycleNext (cycleNew ([] : List Nat)) = (.stop, cycleNew []) ∧
    ∀ n : Nat, cycleTake n (cycleNew ([] : List Nat)) = [] := by
  refine ⟨by decide, by decide, fun n => ?_⟩
  cases n with
  | zero => rfl
  | succ m => rfl

/-- C10: a zip_longest cursor constructed with zero source sequences raises
`StopIteration` on every `advance()` call (the result is the exhaustion
sentinel `none`, never a produced tuple — in particular not the empty tuple
`some []` — and no error path is reachable), so driving it any number of
times collects nothing. -/
theorem zip_longest_no_iterables (α : Type) (fv : α) :
    zipLongestNext fv [] = none ∧ ∀ n : Nat, zipLongestTake fv n [] = [] := by
  refine ⟨rfl, fun n => ?_⟩
  cases n with
  | zero => rfl
  | succ m => simp [zipLongestTake, zipLongestNext]

/-- C9: whenever a compress `advance()` produces a value, the loop consumed
the same number `k + 1` of selector values and data values (lockstep: every
falsy selector still consumed its data value), the selectors strictly
before position `k` were all falsy, the selector at `k` truthy, and the
returned value is the data value at position `k`; and exhaustion of either
underlying cursor (selector first, then data after one more selector pull)
ends the combinator. -/
theorem compress_lockstep (t : α → Bool) (sel sel1 : List α) (dat dat1 : List β)
    (v : β) (s0 : α) (ss0 : List α) (dat0 : List β)
    (h : compressNext t sel dat = some (v, sel1, dat1)) :
    (∃ k, sel1 = sel.drop (k + 1) ∧ dat1 = dat.drop (k + 1) ∧
      dat.get? k = some v ∧ (∃ s, sel.get? k = some s ∧ t s = true) ∧
      ∀ j, j < k → ∃ s, sel.get? j = some s ∧ t s = false) ∧
    compressNext t ([] : List α) dat0 = none ∧
    compressNext t (s0 :: ss0) ([] : List β) = none := by
  refine ⟨?_, rfl, rfl⟩
  induction sel generalizing dat with
  | nil => simp [compressNext] at h
  | cons s ss ih =>
    cases dat with
    | nil => simp [compressNext] at h
    | cons d ds =>
      rw [compressNext] at h
      by_cases hs : t s
      · rw [if_pos hs] at h
        simp only [Option.some.injEq, Prod.mk.injEq] at h
        obtain ⟨h1, h2, h3⟩ := h
        exact ⟨0, by simp [h2], by simp [h3], by simp [h1], ⟨s, rfl, hs⟩,
          fun j hj => absurd hj (Nat.not_lt_zero j)⟩
      · rw [if_neg hs] at h
        obtain ⟨k, h1, h2, h3, h4, h5⟩ := ih ds h
        refine ⟨k + 1, by simpa using h1, by simpa using h2, by simpa using h3,
          by simpa using h4, fun j hj => ?_⟩
        cases j with
        | zero => exact ⟨s, rfl, by simpa using hs⟩
        | succ j' => exact h5 j' (by omega)

/-- Witness for C9 at a concrete input: the selector list `[false, true]`
against the data list `[10, 20]` produces `20` having consumed two items
from each side. -/
theorem compress_lockstep_witness :
    (∃ k, ([] : List Bool) = [false, true].drop (k + 1) ∧
      ([] : List Nat) = [10, 20].drop (k + 1) ∧
      [10, 20].get? k = some 20 ∧
      (∃ s, [false, true].get? k = some s ∧ (fun b => b) s = true) ∧
      ∀ j, j < k → ∃ s, [false, true].get? j = some s ∧ (fun b => b) s = false) ∧
    compressNext (fun b => b) ([] : List Bool) [5] = none ∧
    compressNext (fun b => b) [true] ([] : List Nat) = none :=
  compress_lockstep (fun b => b) [false, true] [] [10, 20] [] 20 true [] [5] (by decide)

/-- C2, counterexample: `repeat(obj, -1)` is accepted at construction —
the negative `times` is silently clamped to `0` by
`to_usize().unwrap_or(0)` — instead of raising the value error the claim
requires. -/
theorem repeat_negative_times_accepted :
    repeatNewTimes (some (-1)) = .ok (some 0) := rfl

/-- C2, amended: islice's start/stop/step must be ints with
`0 ≤ v ≤ isize::MAX`, anything else (negative, too large, non-int) being a
value error at construction; a negative `r` for combinations /
combinations_with_replacement / permutations is a value error at
construction; repeat's `times`, however, raises an overflow error (not a
value error) when above `isize::MAX` and silently clamps negative values to
`0`; and an `r` above `usize::MAX` makes the combinations and permutations
constructors panic on `to_usize().unwrap()` rather than raise a value
error. -/
theorem construction_validation (v : Int) (n : Nat) :
    (v < 0 ∨ (isizeMax : Int) < v → pyobjectToOptUsize (.int v) = .error "ValueError") ∧
    (0 ≤ v → v ≤ (isizeMax : Int) → pyobjectToOptUsize (.int v) = .ok v.toNat) ∧
    pyobjectToOptUsize .notInt = .error "ValueError" ∧
    (v < 0 → combinationsNewR v = some (.error "r must be non-negative")) ∧
    (v < 0 → permutationsNewR n (some v) = some (.error "r must be non-negative")) ∧
    ((usizeMax : Int) < v → combinationsNewR v = none) ∧
    ((usizeMax : Int) < v → permutationsNewR n (some v) = none) ∧
    ((isizeMax : Int) < v → repeatNewTimes (some v) =
      .error "OverflowError: Cannot fit in isize.") ∧
    (v < 0 → repeatNewTimes (some v) = .ok (some 0)) := by
  have hiu : (isizeMax : Int) ≤ (usizeMax : Int) := by
    have : isizeMax ≤ usizeMax := by norm_num [isizeMax, usizeMax, usizeSize]
    exact_mod_cast this
  refine ⟨?_, ?_, rfl, ?_, ?_, ?_, ?_, ?_, ?_⟩
  · rintro (h | h) <;> simp [pyobjectToOptUsize] <;> omega
  · intro h1 h2
    have hc : 0 ≤ v ∧ v ≤ (usizeMax : Int) ∧ v ≤ (isizeMax : Int) := ⟨h1, by omega, h2⟩
    simp only [pyobjectToOptUsize]
    rw [if_pos hc]
  · intro h; simp [combinationsNewR, if_pos h]
  · intro h; simp [permutationsNewR, if_pos h]
  · intro h
    rw [combinationsNewR, if_neg (by omega), if_neg (by omega)]
  · intro h
    rw [permutationsNewR]
    rw [if_neg (by omega), if_neg (by omega)]
  · intro h; rw [repeatNewTimes, if_pos (by omega)]
  · intro h
    rw [repeatNewTimes, if_neg (by omega)]
    simp [Int.toNat_of_nonpos (le_of_lt h)]

/-- Witness for C2's amended theorem at concrete inputs: `-1` is rejected
by the islice validator and the combinations constructor, accepted (as `0`)
by repeat, and `2 ^ 70` overflows repeat and panics combinations. -/
theorem construction_validation_witness :
    (pyobjectToOptUsize (.int (-1)) = .error "ValueError") ∧
    (combinationsNewR (-1) = some (.error "r must be non-negative")) ∧
    (repeatNewTimes (some (-1)) = .ok (some 0)) ∧
    (repeatNewTimes (some (2 ^ 70)) = .error "OverflowError: Cannot fit in isize.") ∧
    (combinationsNewR (2 ^ 70) = none) := by
  have h1 := construction_validation (-1) 0
  have h2 := construction_validation (2 ^ 70) 0
  have hbig : (isizeMax : Int) < 2 ^ 70 := by norm_num [isizeMax]
  have hbig2 : (usizeMax : Int) < 2 ^ 70 := by norm_num [usizeMax, usizeSize]
  exact ⟨h1.1 (Or.inl (by norm_num)), h1.2.2.2.1 (by norm_num),
    h1.2.2.2.2.2.2.2.2 (by norm_num), h2.2.2.2.2.2.2.2.1 hbig,
    h2.2.2.2.2.2.1 hbig2⟩

/-- The catch-up loop leaves `cur` at `max cur next`. -/
theorem isliceCatchUp_eq_max (cur next : Nat) : isliceCatchUp cur next = max cur next := by
  have main : ∀ d cur next : Nat, next - cur ≤ d → isliceCatchUp cur next = max cur next := by
    intro d
    induction d with
    | zero =>
      intro cur next h
      rw [isliceCatchUp]
      rw [if_neg (by omega)]
      omega
    | succ d ih =>
      intro cur next h
      rw [isliceCatchUp]
      by_cases hlt : cur < next
      · rw [if_pos hlt, ih (cur + 1) next (by omega)]
        omega
      · rw [if_neg hlt]; omega
  exact main (next - cur) cur next (le_refl _)

/-- A `next` call on an islice cursor without a stop bound whose target
advance does not overflow: catch up to the target, produce the source value
there, advance the target by `step`. -/
theorem isliceNext_no_stop_produce (src : Nat → α) (cur next step : Nat)
    (h : next + step < usizeSize) :
    isliceNext src ⟨cur, next, none, step⟩ =
      (.produced (src (max cur next)), ⟨max cur next + 1, next + step, none, step⟩) := by
  simp [isliceNext, isliceCatchUp_eq_max, h]

/-- A `next` call on an islice cursor without a stop bound whose target
advance overflows: the value is pulled, but the `stop.unwrap()` of the
overflow branch panics. -/
theorem isliceNext_no_stop_overflow (src : Nat → α) (cur next step : Nat)
    (h : ¬(next + step < usizeSize)) :
    isliceNext src ⟨cur, next, none, step⟩ =
      (.panic, ⟨max cur next + 1, next, none, step⟩) := by
  simp [isliceNext, isliceCatchUp_eq_max, h]

/-- C1 is a code bug: an islice cursor constructed without a stop bound,
with `start = step = isize::MAX` over an unbounded source, produces its
first value normally, but the advance step of its second produced pull
overflows `next + step` and then evaluates `stop.unwrap()` on `None` — a
panic that aborts, instead of the saturation the claim (and the CPython
behaviour the code tries to copy) requires. -/
theorem islice_no_stop_overflow_panics :
    (isliceNext (fun n => n) ⟨0, isizeMax, none, isizeMax⟩).1 = .produced isizeMax ∧
    (isliceNext (fun n => n) ⟨0, isizeMax, none, isizeMax⟩).2 =
      ⟨isizeMax + 1, isizeMax + isizeMax, none, isizeMax⟩ ∧
    (isliceNext (fun n => n)
      ⟨isizeMax + 1, isizeMax + isizeMax, none, isizeMax⟩).1 = IsliceOut.panic := by
  have hsum1 : isizeMax + isizeMax < usizeSize := by norm_num [isizeMax, usizeSize]
  have hsum2 : ¬(isizeMax + isizeMax + isizeMax < usizeSize) := by
    norm_num [isizeMax, usizeSize]
  have hmax1 : max 0 isizeMax = isizeMax := Nat.zero_max isizeMax
  rw [isliceNext_no_stop_produce (fun n => n) 0 isizeMax isizeMax hsum1,
    isliceNext_no_stop_overflow (fun n => n) (isizeMax + 1) (isizeMax + isizeMax)
      isizeMax hsum2, hmax1]
  exact ⟨rfl, rfl, rfl⟩

/-- One chain step at the second source with a cached cursor holding
values. -/
theorem chainNext_snd_cons (a b : List α) (y : α) (ys : List α) :
    chainNext ⟨[a, b], 1, some (y :: ys)⟩ = some (y, ⟨[a, b], 1, some ys⟩) := rfl

/-- One chain step at the second source with an exhausted cached cursor:
the chain is exhausted. -/
theorem chainNext_snd_nil (a b : List α) :
    chainNext (⟨[a, b], 1, some []⟩ : ChainState α) = none := rfl

/-- One chain step at the first source with a cached cursor holding
values. -/
theorem chainNext_fst_cons (a b : List α) (x : α) (xs : List α) :
    chainNext ⟨[a, b], 0, some (x :: xs)⟩ = some (x, ⟨[a, b], 0, some xs⟩) := rfl

/-- One chain step at an exhausted first source when the second holds
values: the index advances and the second source is opened. -/
theorem chainNext_fst_to_snd (a : List α) (y : α) (ys : List α) :
    chainNext ⟨[a, y :: ys], 0, some []⟩ = some (y, ⟨[a, y :: ys], 1, some ys⟩) := rfl

/-- One chain step when both sources are exhausted. -/
theorem chainNext_fst_to_none (a : List α) :
    chainNext (⟨[a, []], 0, some []⟩ : ChainState α) = none := rfl

/-- Opening the first source is observably the same as having it cached. -/
theorem chainNext_open_fst (a b : List α) :
    chainNext (⟨[a, b], 0, none⟩ : ChainState α) = chainNext ⟨[a, b], 0, some a⟩ := rfl

/-- Draining a two-source chain positioned at the second source yields the
rest of that source. -/
theorem chainDrain_snd (a b : List α) (bs : List α) :
    ∀ fuel, bs.length < fuel → chainDrainAux α fuel ⟨[a, b], 1, some bs⟩ = bs := by
  induction bs with
  | nil =>
    intro fuel h
    cases fuel with
    | zero => omega
    | succ f => simp [chainDrainAux, chainNext_snd_nil]
  | cons y ys ih =>
    intro fuel h
    cases fuel with
    | zero => omega
    | succ f =>
      simp only [chainDrainAux, chainNext_snd_cons]
      rw [ih f (by simpa using Nat.lt_of_succ_lt_succ h)]

/-- Draining a two-source chain positioned at the first source yields the
rest of the first source followed by the whole second source. -/
theorem chainDrain_fst (a b : List α) (as : List α) :
    ∀ fuel, as.length + b.length < fuel →
      chainDrainAux α fuel ⟨[a, b], 0, some as⟩ = as ++ b := by
  induction as with
  | nil =>
    intro fuel h
    cases fuel with
    | zero => omega
    | succ f =>
      cases b with
      | nil => simp [chainDrainAux, chainNext_fst_to_none]
      | cons y ys =>
        simp only [chainDrainAux, chainNext_fst_to_snd, List.nil_append]
        rw [chainDrain_snd a (y :: ys) ys f (by simp at h; omega)]
  | cons x xs ih =>
    intro fuel h
    cases fuel with
    | zero => omega
    | succ f =>
      simp only [chainDrainAux, chainNext_fst_cons]
      rw [ih f (by simp at h; omega)]
      simp

/-- The invariant tying a three-cursor tee state to the original sequence:
the shared buffer followed by the remaining source is the original
sequence, and every cursor's index is within the filled buffer with its
output being exactly the prefix it has walked. -/
def Tee3Inv (seq : List α) (s : Tee3State α) : Prop :=
  s.data.values ++ s.data.iterable = seq ∧
  ∀ c, s.idx c ≤ s.data.values.length ∧ s.out c = seq.take (s.idx c)

/-- One tee step preserves the invariant and moves the acting cursor's
index to `min (idx + 1) seq.length` (an advance when values remain, a
no-op `StopIteration` at the end). -/
theorem tee3Step_spec (seq : List α) (s : Tee3State α) (c : Fin 3) (h : Tee3Inv seq s) :
    Tee3Inv seq (tee3Step c s) ∧
    (tee3Step c s).idx = Function.update s.idx c (min (s.idx c + 1) seq.length) := by
  obtain ⟨hseq, hcur⟩ := h
  have hle : s.idx c ≤ s.data.values.length := (hcur c).1
  have hlen : seq.length = s.data.values.length + s.data.iterable.length := by
    rw [← hseq]; simp
  rcases Nat.lt_or_ge (s.idx c) s.data.values.length with hlt | hge
  · -- the cursor reads an already-filled slot
    have hne : ¬s.data.values.length = s.idx c := by omega
    obtain ⟨v, hv⟩ : ∃ v, s.data.values[s.idx c]? = some v :=
      ⟨_, List.getElem?_eq_getElem hlt⟩
    have hvs : seq[s.idx c]? = some v := by
      rw [← hseq, List.getElem?_append_left hlt, hv]
    have hstep : tee3Step c s =
        ⟨s.data, Function.update s.idx c (s.idx c + 1),
          Function.update s.out c (s.out c ++ [v])⟩ := by
      simp only [tee3Step, teeGetItem, if_neg hne, hv]
    have hdata1 : (tee3Step c s).data = s.data := by rw [hstep]
    have hidx1 : (tee3Step c s).idx = Function.update s.idx c (s.idx c + 1) := by
      rw [hstep]
    have hout1 : (tee3Step c s).out =
        Function.update s.out c (s.out c ++ [v]) := by
      rw [hstep]
    refine ⟨⟨by rw [hdata1]; exact hseq, fun c1 => ?_⟩, ?_⟩
    · rw [hdata1, hidx1, hout1]
      by_cases hc : c1 = c
      · subst hc
        rw [Function.update_same, Function.update_same, (hcur c1).2]
        refine ⟨by omega, ?_⟩
        rw [List.take_succ, hvs]
        simp
      · rw [Function.update_noteq hc, Function.update_noteq hc]
        exact hcur c1
    · rw [hidx1, min_eq_left (by omega)]
  · -- the cursor is at the frontier of the buffer
    have heq : s.data.values.length = s.idx c := by omega
    rcases hiter : s.data.iterable with _ | ⟨x, rest⟩
    · -- source exhausted: the call raises StopIteration and changes nothing
      have hstep : tee3Step c s = s := by
        simp only [tee3Step, teeGetItem, if_pos heq, hiter]
      have hseqlen : seq.length = s.idx c := by
        rw [hlen, hiter]; simpa using heq
      rw [hstep]
      refine ⟨⟨hseq, hcur⟩, ?_⟩
      rw [show min (s.idx c + 1) seq.length = s.idx c by omega]
      rw [Function.update_eq_self]
    · -- the acting cursor fills the next slot
      have hv : (s.data.values ++ [x])[s.idx c]? = some x := by
        rw [← heq]; exact List.getElem?_concat_length s.data.values x
      have hvs : seq[s.idx c]? = some x := by
        rw [← hseq, hiter, ← heq, List.getElem?_append_right (le_refl _)]
        simp
      have hstep : tee3Step c s =
          ⟨⟨rest, s.data.values ++ [x]⟩, Function.update s.idx c (s.idx c + 1),
            Function.update s.out c (s.out c ++ [x])⟩ := by
        simp only [tee3Step, teeGetItem, if_pos heq, hiter, hv]
      have hdata1 : (tee3Step c s).data = ⟨rest, s.data.values ++ [x]⟩ := by rw [hstep]
      have hidx1 : (tee3Step c s).idx = Function.update s.idx c (s.idx c + 1) := by
        rw [hstep]
      have hout1 : (tee3Step c s).out = Function.update s.out c (s.out c ++ [x]) := by
        rw [hstep]
      have hseq1 : (s.data.values ++ [x]) ++ rest = seq := by
        rw [← hseq, hiter]; simp
      refine ⟨⟨by rw [hdata1]; exact hseq1, fun c1 => ?_⟩, ?_⟩
      · rw [hdata1, hidx1, hout1]
        by_cases hc : c1 = c
        · subst hc
          rw [Function.update_same, Function.update_same, (hcur c1).2]
          refine ⟨by simp; omega, ?_⟩
          rw [List.take_succ, hvs]
          simp
        · rw [Function.update_noteq hc, Function.update_noteq hc]
          refine ⟨?_, (hcur c1).2⟩
          have := (hcur c1).1
          simp
          omega
      · rw [hidx1, min_eq_left (by rw [hlen, hiter]; simp; omega)]

/-- Running any schedule preserves the invariant, and each cursor's index
ends at `min (start + number of its advances) seq.length`. -/
theorem tee3Run_spec (seq : List α) :
    ∀ (sched : List (Fin 3)) (s : Tee3State α), Tee3Inv seq s →
      Tee3Inv seq (tee3Run sched s) ∧
      ∀ c, (tee3Run sched s).idx c = min (s.idx c + sched.count c) seq.length := by
  intro sched
  induction sched with
  | nil =>
    intro s hs
    refine ⟨hs, fun c => ?_⟩
    have h1 := (hs.2 c).1
    have h2 : s.data.values.length ≤ seq.length := by
      rw [← hs.1]; simp
    simp only [tee3Run, List.count_nil, Nat.add_zero]
    omega
  | cons c0 rest ih =>
    intro s hs
    obtain ⟨hinv1, hidx1⟩ := tee3Step_spec seq s c0 hs
    obtain ⟨hinv2, hidx2⟩ := ih (tee3Step c0 s) hinv1
    refine ⟨hinv2, fun c => ?_⟩
    have hcle : s.idx c ≤ seq.length := by
      have h1 := (hs.2 c).1
      have h2 : s.data.values.length ≤ seq.length := by
        rw [← hs.1]; simp
      omega
    show (tee3Run rest (tee3Step c0 s)).idx c = _
    rw [hidx2 c, hidx1]
    by_cases hc : c = c0
    · subst hc
      rw [Function.update_same, List.count_cons_self]
      omega
    · rw [Function.update_noteq hc, List.count_cons_of_ne hc]

/-- C3: for every finite source sequence and every interleaved schedule of
`advance()` calls on the three cursors of `tee(seq, 3)`, each cursor's
produced output is exactly the prefix of the original sequence of length
`min(number of its advances, length of seq)` — so each cursor reproduces
the original sequence in order exactly once (no skips, no duplicates), and
a cursor advanced at least `seq.length` times has produced the whole
sequence, regardless of how far its siblings have advanced. -/
theorem tee_three_cursors (seq : List α) (sched : List (Fin 3)) (c : Fin 3) :
    (tee3Run sched (tee3New seq)).out c = seq.take (min (sched.count c) seq.length) := by
  have hinv : Tee3Inv seq (tee3New seq) :=
    ⟨by simp [tee3New], fun c1 => ⟨by simp [tee3New], by simp [tee3New]⟩⟩
  obtain ⟨⟨_, hcur⟩, hidx⟩ := tee3Run_spec seq sched (tee3New seq) hinv
  rw [(hcur c).2, hidx c]
  simp [tee3New]

/-- Reading a just-set slot. -/
theorem getD_set_self (l : List Nat) (i a : Nat) (h : i < l.length) :
    (l.set i a).getD i 0 = a := by
  rw [List.getD_eq_getElem?_getD, List.getElem?_set_self (by simpa using h)]
  rfl

/-- Reading another slot of a set list. -/
theorem getD_set_ne (l : List Nat) (i j a : Nat) (h : i ≠ j) :
    (l.set i a).getD j 0 = l.getD j 0 := by
  rw [List.getD_eq_getElem?_getD, List.getElem?_set_ne h, ← List.getD_eq_getElem?_getD]

/-- When the right-to-left scan fails, every inspected position holds its
maximum value `position + n - r`. -/
theorem combScan_none (ind : List Nat) (n r : Nat) :
    ∀ k, combScan ind n r k = none → ∀ m, m < k → ind.getD m 0 = m + n - r := by
  intro k
  induction k with
  | zero => intro _ m hm; omega
  | succ k ih =>
    intro h m hm
    rw [combScan] at h
    by_cases hc : ind.getD k 0 = k + n - r
    · rw [if_pos hc] at h
      rcases Nat.lt_or_ge m k with h1 | h1
      · exact ih h m h1
      · have hmk : m = k := by omega
        rw [hmk]; exact hc
    · rw [if_neg hc] at h
      exact absurd h (by simp)

/-- When the right-to-left scan succeeds it returns the rightmost inspected
position not at its maximum: everything to its right is maximal. -/
theorem combScan_some (ind : List Nat) (n r : Nat) :
    ∀ k idx, combScan ind n r k = some idx →
      idx < k ∧ ind.getD idx 0 ≠ idx + n - r ∧
      ∀ m, idx < m → m < k → ind.getD m 0 = m + n - r := by
  intro k
  induction k with
  | zero => intro idx h; exact absurd h (by simp [combScan])
  | succ k ih =>
    intro idx h
    rw [combScan] at h
    by_cases hc : ind.getD k 0 = k + n - r
    · rw [if_pos hc] at h
      obtain ⟨h1, h2, h3⟩ := ih idx h
      refine ⟨by omega, h2, fun m hm1 hm2 => ?_⟩
      rcases Nat.lt_or_ge m k with h4 | h4
      · exact h3 m hm1 h4
      · have hmk : m = k := by omega
        rw [hmk]; exact hc
    · rw [if_neg hc] at h
      obtain rfl : k = idx := by simpa using h
      exact ⟨Nat.lt_succ_self k, hc, fun m hm1 hm2 => by omega⟩

/-- Closed form of the reset loop: positions before `j` or past the loop
range keep their values; position `m` in the range becomes
`ind[j-1] + (m - j + 1)`. -/
theorem combFillAux_getD (fuel : Nat) :
    ∀ (j : Nat) (ind : List Nat), 1 ≤ j → j + fuel ≤ ind.length →
      (combFillAux fuel j ind).length = ind.length ∧
      ∀ m, (combFillAux fuel j ind).getD m 0 =
        if m < j ∨ j + fuel ≤ m then ind.getD m 0
        else ind.getD (j - 1) 0 + (m - j + 1) := by
  induction fuel with
  | zero =>
    intro j ind h1 h2
    refine ⟨rfl, fun m => ?_⟩
    rw [if_pos (by omega)]
    rfl
  | succ fuel ih =>
    intro j ind h1 h2
    rw [combFillAux]
    have hjlen : j < ind.length := by omega
    obtain ⟨hlen, hget⟩ := ih (j + 1) (ind.set j (ind.getD (j - 1) 0 + 1)) (by omega)
      (by rw [List.length_set]; omega)
    refine ⟨by rw [hlen, List.length_set], fun m => ?_⟩
    rw [hget m]
    by_cases hm1 : m < j
    · rw [if_pos (Or.inl (by omega)), if_pos (Or.inl hm1), getD_set_ne _ _ _ _ (by omega)]
    · by_cases hm2 : m = j
      · subst hm2
        rw [if_pos (Or.inl (by omega)), getD_set_self _ _ _ hjlen,
          if_neg (by omega)]
        omega
      · by_cases hm3 : j + 1 + fuel ≤ m
        · rw [if_pos (Or.inr hm3), if_pos (Or.inr (by omega)),
            getD_set_ne _ _ _ _ (by omega)]
        · rw [if_neg (by omega), if_neg (by omega)]
          rw [show j + 1 - 1 = j from rfl, getD_set_self _ _ _ hjlen]
          omega

/-- The successor step of the combinations index vector either reports
exhaustion or preserves the C6 invariant. -/
theorem combStep_preserves (n r : Nat) (ind : List Nat) (hrn : r ≤ n)
    (hinv : CombInv n r ind) :
    combStep n r ind = none ∨
      ∃ ind2, combStep n r ind = some ind2 ∧ CombInv n r ind2 := by
  obtain ⟨hlen, hinc, hbound⟩ := hinv
  rcases hscan : combScan ind n r r with _ | idx
  · left; rw [combStep, hscan]
  · right
    obtain ⟨hidxr, hne, hmax⟩ := combScan_some ind n r r idx hscan
    refine ⟨combFillAux (r - (idx + 1)) (idx + 1) (ind.set idx (ind.getD idx 0 + 1)),
      by rw [combStep, hscan], ?_⟩
    have hidxlt : ind.getD idx 0 < idx + n - r := by
      have := hbound idx hidxr; omega
    have hidxlen : idx < ind.length := by omega
    obtain ⟨hlen2, hget⟩ := combFillAux_getD (r - (idx + 1)) (idx + 1)
      (ind.set idx (ind.getD idx 0 + 1)) (by omega) (by rw [List.length_set]; omega)
    have hform : ∀ m, m < r →
        (combFillAux (r - (idx + 1)) (idx + 1)
          (ind.set idx (ind.getD idx 0 + 1))).getD m 0 =
          if m < idx then ind.getD m 0 else ind.getD idx 0 + 1 + (m - idx) := by
      intro m hm
      rw [hget m]
      by_cases h1 : m < idx
      · rw [if_pos (Or.inl (by omega)), if_pos h1, getD_set_ne _ _ _ _ (by omega)]
      · by_cases h2 : m = idx
        · subst h2
          rw [if_pos (Or.inl (by omega)), getD_set_self _ _ _ hidxlen, if_neg h1]
          omega
        · rw [if_neg (by omega), if_neg h1,
            show idx + 1 - 1 = idx from rfl, getD_set_self _ _ _ hidxlen]
          omega
    refine ⟨by rw [hlen2, List.length_set, hlen], fun j hj i hij => ?_, fun i hi => ?_⟩
    · rw [hform j hj, hform i (by omega)]
      by_cases hi2 : i < idx
      · by_cases hj2 : j < idx
        · rw [if_pos hi2, if_pos hj2]
          exact hinc j hj i hij
        · rw [if_pos hi2, if_neg hj2]
          have := hinc idx hidxr i hi2
          omega
      · by_cases hj2 : j < idx
        · omega
        · rw [if_neg hi2, if_neg hj2]
          omega
    · rw [hform i hi]
      by_cases h1 : i < idx
      · rw [if_pos h1]
        exact hbound i hi
      · rw [if_neg h1]
        omega

/-- The freshly constructed index vector `0..r` satisfies the C6
invariant. -/
theorem combinationsNew_inv {α : Type u} (pool : List α) (r : Nat)
    (hrn : r ≤ pool.length) :
    CombInv pool.length r (combinationsNew pool r).indices := by
  have hr : ∀ m, m < r → (List.range r).getD m 0 = m := by
    intro m hm
    rw [List.getD_eq_getElem?_getD, List.getElem?_range hm]
    rfl
  refine ⟨by simp [combinationsNew], fun j hj i hij => ?_, fun i hi => ?_⟩
  · show (List.range r).getD i 0 < (List.range r).getD j 0
    rw [hr j hj, hr i (by omega)]
    exact hij
  · show (List.range r).getD i 0 ≤ i + pool.length - r
    rw [hr i hi]
    omega

/-- C6: for every combinations cursor over a pool of size `n` with
`r ≥ 1` that is not exhausted, the stored index vector has length `r`, is
strictly increasing, and its entry at position `i` never exceeds
`i + n - r` (the invariant holds at construction whenever the cursor is
live, i.e. `r ≤ n`); each successor step of `next` either preserves this
invariant or sets the exhausted flag, and the flag is sticky: an exhausted
cursor keeps returning `StopIteration` unchanged. -/
theorem combinations_indices_invariant {α : Type} [Inhabited α] (s : CombinationsState α)
    (hr : 1 ≤ s.r) (hrn : s.r ≤ s.pool.length) (hex : s.exhausted = false)
    (hinv : CombInv s.pool.length s.r s.indices) :
    CombInv s.pool.length s.r (combinationsNew s.pool s.r).indices ∧
    ((combinationsNext s).2.exhausted = true ∨
      CombInv s.pool.length s.r (combinationsNext s).2.indices) ∧
    ∀ s1 : CombinationsState α, s1.exhausted = true → combinationsNext s1 = (none, s1) := by
  refine ⟨combinationsNew_inv s.pool s.r hrn, ?_,
    fun s1 h1 => by simp [combinationsNext, h1]⟩
  have hnext : combinationsNext s =
      (some (s.indices.map fun i => s.pool.getD i default),
        match combStep s.pool.length s.r s.indices with
        | none => { s with exhausted := true }
        | some ind1 => { s with indices := ind1 }) := by
    rw [combinationsNext, hex]
    simp only [Bool.false_eq_true, if_false, if_neg (by omega : ¬s.r = 0)]
    rcases combStep s.pool.length s.r s.indices with _ | ind1 <;> rfl
  rcases hstep : combStep s.pool.length s.r s.indices with _ | ind2
  · left
    rw [hnext, hstep]
  · rcases combStep_preserves s.pool.length s.r s.indices hrn hinv with h | ⟨ind3, h3, hinv3⟩
    · rw [h] at hstep; exact absurd hstep (by simp)
    · right
      rw [h3] at hstep
      obtain rfl : ind3 = ind2 := by simpa using hstep
      rw [hnext, h3]
      exact hinv3

/-- Witness for C6 at a concrete cursor (pool `[10,20,30,40]`, `r = 2`,
indices `[0,1]`): the constructed vector satisfies the invariant and one
successor step keeps it (or exhausts). -/
theorem combinations_indices_invariant_witness :
    CombInv ([10, 20, 30, 40] : List Nat).length 2
      (combinationsNew ([10, 20, 30, 40] : List Nat) 2).indices ∧
    (((combinationsNext (⟨[10, 20, 30, 40], [0, 1], 2, false⟩ :
       CombinationsState Nat)).2.exhausted = true) ∨
      CombInv ([10, 20, 30, 40] : List Nat).length 2
        (combinationsNext (⟨[10, 20, 30, 40], [0, 1], 2, false⟩ :
          CombinationsState Nat)).2.indices) ∧
    ∀ s1 : CombinationsState Nat, s1.exhausted = true → combinationsNext s1 = (none, s1) :=
  combinations_indices_invariant ⟨[10, 20, 30, 40], [0, 1], 2, false⟩
    (by decide) (by decide) rfl (by decide)

/-- C4: groupby over the source `[1,1,2,2,1]` with no key function
(modelled by the identity key), when the outer iterator and each returned
sub-iterator are drained in order, yields exactly the three groups
`(1,[1,1])`, `(2,[2,2])`, `(1,[1])` — grouping by adjacency of equal keys,
not by global key equality (the key `1` opens two distinct groups). -/
theorem groupby_adjacent_groups :
    groupByCollect (fun x => x) 6 (groupByNew [1, 1, 2, 2, 1]) =
      [(1, [1, 1]), (2, [2, 2]), (1, [1])] := by decide

/-- A grouper id is dead in a state when it is not the current grouper and
is older than the allocation counter (so it can never be re-issued). -/
def GBDead (gid : Nat) (s : GBState α) : Prop :=
  s.grouper ≠ some gid ∧ gid < s.fresh

instance (gid : Nat) [DecidableEq α] (s : GBState α) : Decidable (GBDead gid s) := by
  unfold GBDead; infer_instance

/-- `groupByEmit` leaves the source/value/key fields alone, clears
`next_group`, installs the freshly allocated grouper and bumps the
counter. -/
theorem groupByEmit_snd (s : GBState α) :
    (groupByEmit s).2 =
      ⟨s.iterable, s.currentValue, s.currentKey, false, some s.fresh, s.fresh + 1⟩ := by
  rcases s with ⟨it, cv, ck, ng, g, f⟩
  cases ck <;> rfl

/-- Advancing the outer groupby iterator kills every previously issued
grouper id: afterwards the current grouper (if any) is strictly fresher. -/
theorem groupByNext_kills [DecidableEq α] (kf : α → α) (gid : Nat) (s : GBState α)
    (h : gid < s.fresh) : GBDead gid (groupByNext kf s).2 := by
  rcases s with ⟨it, cv, ck, ng, g, f⟩
  simp only at h
  cases ng with
  | true =>
    cases ck <;> simp [groupByNext, groupByEmit, GBDead] <;> omega
  | false =>
    cases ck with
    | none =>
      cases it <;> simp [groupByNext, groupByEmit, GBDead] <;> omega
    | some old =>
      rcases hsk : gbSkip kf old it with _ | ⟨v, k, rest⟩ <;>
        simp [groupByNext, groupByEmit, hsk, GBDead] <;> omega

/-- A grouper advance never touches the allocation counter. -/
theorem grouperNext_fresh [DecidableEq α] (kf : α → α) (g : Nat) (s : GBState α) :
    (grouperNext kf g s).2.fresh = s.fresh := by
  rcases s with ⟨it, cv, ck, ng, gr, f⟩
  by_cases hg : gr = some g
  · cases cv <;> cases ck <;> cases it <;> simp [grouperNext, hg] <;>
      (split_ifs <;> rfl)
  · simp [grouperNext, hg]

/-- A grouper advance either keeps the current-grouper slot or clears it;
it never installs a different id. -/
theorem grouperNext_grouper [DecidableEq α] (kf : α → α) (g : Nat) (s : GBState α) :
    (grouperNext kf g s).2.grouper = s.grouper ∨ (grouperNext kf g s).2.grouper = none := by
  rcases s with ⟨it, cv, ck, ng, gr, f⟩
  by_cases hg : gr = some g
  · cases cv <;> cases ck <;> cases it <;> simp [grouperNext, hg] <;>
      (split_ifs <;> simp)
  · simp [grouperNext, hg]

/-- A grouper that is not the parent's current grouper signals exhaustion
and leaves the state untouched. -/
theorem grouperNext_not_current [DecidableEq α] (kf : α → α) (gid : Nat) (s : GBState α)
    (h : ¬s.grouper = some gid) : grouperNext kf gid s = (.stop, s) := by
  unfold grouperNext
  rw [if_neg h]

/-- Every single operation preserves deadness of a grouper id. -/
theorem gbApply_dead [DecidableEq α] (kf : α → α) (gid : Nat) (op : GBOp) (s : GBState α)
    (h : GBDead gid s) : GBDead gid (gbApply kf op s) := by
  cases op with
  | outer => exact groupByNext_kills kf gid s h.2
  | inner g =>
    refine ⟨?_, by rw [gbApply, grouperNext_fresh]; exact h.2⟩
    rw [gbApply]
    rcases grouperNext_grouper kf g s with hsame | hnone
    · rw [hsame]; exact h.1
    · rw [hnone]; simp

/-- Any schedule of operations preserves deadness of a grouper id. -/
theorem gbRun_dead [DecidableEq α] (kf : α → α) (gid : Nat) (ops : List GBOp)
    (s : GBState α) (h : GBDead gid s) : GBDead gid (gbRun kf ops s) := by
  induction ops generalizing s with
  | nil => exact h
  | cons op rest ih => exact ih (gbApply kf op s) (gbApply_dead kf gid op s h)

/-- C5: once the outer groupby iterator's `advance()` has been called after
a grouper was issued (every issued grouper id is below the allocation
counter `fresh`), that grouper is no longer the parent's current grouper,
it stays non-current under every further schedule of outer and grouper
advances, and every subsequent `advance()` on it returns `StopIteration`
without touching the shared state — it is permanently dead. -/
theorem grouper_superseded_dead [DecidableEq α] (kf : α → α) (s : GBState α) (gid : Nat)
    (h : gid < s.fresh) (ops : List GBOp) :
    (groupByNext kf s).2.grouper ≠ some gid ∧
    (gbRun kf ops (groupByNext kf s).2).grouper ≠ some gid ∧
    grouperNext kf gid (gbRun kf ops (groupByNext kf s).2) =
      (.stop, gbRun kf ops (groupByNext kf s).2) := by
  have h1 := groupByNext_kills kf gid s h
  have h2 := gbRun_dead kf gid ops _ h1
  exact ⟨h1.1, h2.1, grouperNext_not_current kf gid _ h2.1⟩

/-- Witness for C5 at a concrete state: grouper 0 is current with the
counter at 1; after one outer advance and the schedule
`[inner 0, outer, inner 0]`, grouper 0 is still dead and its advance
returns `StopIteration` with the state unchanged. -/
theorem grouper_superseded_dead_witness :
    ((groupByNext (fun x => x) (⟨[1, 2], some 1, some 1, false, some 0, 1⟩ :
      GBState Nat)).2.grouper ≠ some 0) ∧
    ((gbRun (fun x => x) [GBOp.inner 0, GBOp.outer, GBOp.inner 0]
      (groupByNext (fun x => x) (⟨[1, 2], some 1, some 1, false, some 0, 1⟩ :
        GBState Nat)).2).grouper ≠ some 0) ∧
    (grouperNext (fun x => x) 0 (gbRun (fun x => x) [GBOp.inner 0, GBOp.outer, GBOp.inner 0]
      (groupByNext (fun x => x) (⟨[1, 2], some 1, some 1, false, some 0, 1⟩ :
        GBState Nat)).2) =
      (.stop, gbRun (fun x => x) [GBOp.inner 0, GBOp.outer, GBOp.inner 0]
        (groupByNext (fun x => x) (⟨[1, 2], some 1, some 1, false, some 0, 1⟩ :
          GBState Nat)).2)) :=
  grouper_superseded_dead (fun x => x) ⟨[1, 2], some 1, some 1, false, some 0, 1⟩ 0
    (by decide) [GBOp.inner 0, GBOp.outer, GBOp.inner 0]

/-- C8: for all finite source sequences `a` and `b`, including empty ones,
collecting all values produced by `chain(a, b)` until exhaustion equals the
concatenation of the values of `a` followed by the values of `b`. -/
theorem chain_collect_append (a b : List α) : chainCollect a b = a ++ b := by
  show chainDrainAux α (a.length + b.length + 1) ⟨[a, b], 0, none⟩ = a ++ b
  have step : chainDrainAux α (a.length + b.length + 1) ⟨[a, b], 0, none⟩ =
      chainDrainAux α (a.length + b.length + 1) ⟨[a, b], 0, some a⟩ := by
    simp only [chainDrainAux]
    rw [chainNext_open_fst]
  rw [step, chainDrain_fst a b a (a.length + b.length + 1) (by omega)]

end Itertools
